import Mathlib

/-!
Verification of the `ds-bazaar-workshop` repository specification.

Part I models the Resource Monitor component (spec §3–§7).  Its Python
implementation lives in `tools.py`, which is not part of the provided
sources (only its callers in `measure.ipynb`, `subset.ipynb` and the
parquet notebook are), so the definitions below are modelled from the
specification text.  The spec leaves the restart question open (Design
Notes: restartable vs strict one-shot, implementer's choice); we model
the strict one-shot lifecycle, surfacing `start` on any non-idle monitor
as the lifecycle-misuse error `AlreadyRunning`.

Part II embeds the two age/aggregation algorithms of `subset.ipynb`
(whole-data `AGE = YEAR - FIRST_YEAR` versus the incremental
carry-forward join, and the split-apply-combine mean).
-/

namespace RM

/-- Modelled from the spec (§3 Data Model; `tools.py` is missing from the
sources): one row of telemetry captured at an instant.  Disk I/O counters
are optional (absent on unsupported platforms, never defaulted to zero);
`tag` is an optional label attached to this sample. -/
structure Sample where
  timestamp : ℚ
  cpu_percent : ℚ
  memory_bytes : ℕ
  disk_read_bytes : Option ℕ
  disk_write_bytes : Option ℕ
  tag : Option String
deriving DecidableEq, Repr

/-- Modelled from the spec: a raw OS reading taken by the sampling
activity (CPU percent since last read, resident memory, optional
cumulative disk I/O counters). -/
structure Reading where
  time : ℚ
  cpu : ℚ
  mem : ℕ
  diskRead : Option ℕ
  diskWrite : Option ℕ
deriving DecidableEq, Repr

/-- Modelled from the spec (§3): monitor lifecycle phases, including the
terminal Error phase entered when the target process vanishes. -/
inductive Phase
  | idle
  | running
  | stopped
  | error
deriving DecidableEq, Repr

/-- Modelled from the spec (§7 Error Handling): the error kinds of the
Resource Monitor. -/
inductive MonError
  | InvalidConfiguration
  | AlreadyRunning
  | NotRunning
  | ProcessNotFound
deriving DecidableEq, Repr

/-- Modelled from the spec: the state of one Monitor session — the
sampling interval, the lifecycle phase, the append-only History, and the
single-slot pending tag label handed to the next sample. -/
structure MonState where
  interval : ℚ
  phase : Phase
  history : List Sample
  pending : Option String
deriving DecidableEq

/-- Modelled from the spec (§4.1 construction): `interval` must be
positive, else construction fails with `InvalidConfiguration` and no
monitor object is created. -/
def create (interval : ℚ) : Except MonError MonState :=
  if interval ≤ 0 then .error .InvalidConfiguration
  else .ok { interval := interval, phase := .idle, history := [], pending := none }

/-- Modelled from the spec (§4.1): `start` transitions Idle → Running and
fails with `AlreadyRunning` on a monitor that is not idle (strict
one-shot lifecycle; see Design Notes). -/
def start (s : MonState) : Except MonError MonState :=
  match s.phase with
  | .idle => .ok { s with phase := .running }
  | _ => .error .AlreadyRunning

/-- Modelled from the spec (§4.1): `stop` transitions Running → Stopped
and returns the finalized History; it fails with `NotRunning` while
Idle, and succeeds idempotently on a stopped or Error-state monitor,
returning the (partial) History collected so far. -/
def stop (s : MonState) : Except MonError (MonState × List Sample) :=
  match s.phase with
  | .idle => .error .NotRunning
  | .running => .ok ({ s with phase := .stopped }, s.history)
  | .stopped => .ok (s, s.history)
  | .error => .ok ({ s with phase := .stopped }, s.history)

/-- Modelled from the spec (§4.1): `tag` posts a pending label consumed
by the next captured sample; a single slot, last write wins. -/
def tagOp (label : String) (s : MonState) : MonState :=
  { s with pending := some label }

/-- Modelled from the spec (§4.1): `history` returns a stable snapshot of
the Samples captured so far, callable at any lifecycle stage. -/
def historyOp (s : MonState) : List Sample := s.history

/-- Modelled from the spec: the sample built by one cycle of the sampling
activity from an OS reading and the pending tag slot. -/
def mkSample (r : Reading) (t : Option String) : Sample :=
  { timestamp := r.time, cpu_percent := r.cpu, memory_bytes := r.mem,
    disk_read_bytes := r.diskRead, disk_write_bytes := r.diskWrite, tag := t }

/-- Modelled from the spec (§4.1, §5): one cycle of the background
sampling activity — only while Running, append one Sample (consuming the
pending tag label) to History. -/
def sampleStep (r : Reading) (s : MonState) : MonState :=
  if s.phase = .running then
    { s with history := s.history ++ [mkSample r s.pending], pending := none }
  else s

/-- Modelled from the spec (§4.1, §7): the target process has vanished —
the sampling activity fails with `ProcessNotFound` exactly once and the
Monitor enters the terminal Error phase; already-collected History is
kept. Outside the Running phase this is a no-op (no retry). -/
def procDeath (s : MonState) : MonState :=
  if s.phase = .running then { s with phase := .error } else s

/-- Events acting on a Monitor session: the caller's lifecycle calls and
the background sampling activity's own steps. -/
inductive Ev
  | startE
  | stopE
  | tagE (label : String)
  | sampleE (r : Reading)
  | deathE
deriving DecidableEq, Repr

/-- One event applied to the state; a failing lifecycle call (reported
synchronously to the caller) leaves the state unchanged. -/
def step (s : MonState) (e : Ev) : MonState :=
  match e with
  | .startE => match start s with | .ok s' => s' | .error _ => s
  | .stopE => match stop s with | .ok (s', _) => s' | .error _ => s
  | .tagE l => tagOp l s
  | .sampleE r => sampleStep r s
  | .deathE => procDeath s

/-- Run a sequence of events. -/
def exec (s : MonState) : List Ev → MonState
  | [] => s
  | e :: es => exec (step s e) es

/-- A cell of the persisted tabular file: a natural number, a rational,
or a string. -/
inductive Cell
  | natC (n : ℕ)
  | ratC (q : ℚ)
  | strC (s : String)
deriving DecidableEq, Repr

/-- Modelled from the spec (§4.1 persist, §6): one Sample serialized as
one row — one column per field, absent optional fields represented
distinctly from zero (as `none`). -/
def persistRow (s : Sample) : List (Option Cell) :=
  [some (.ratC s.timestamp), some (.ratC s.cpu_percent),
   some (.natC s.memory_bytes), s.disk_read_bytes.map .natC,
   s.disk_write_bytes.map .natC, s.tag.map .strC]

/-- Modelled from the spec (§4.1 persist): serialize a History to the
tabular on-disk representation, one row per Sample. -/
def persistFile (h : List Sample) : List (List (Option Cell)) :=
  h.map persistRow

/-- Decode one optional natural-number column. -/
def decodeOptNat : Option Cell → Option (Option ℕ)
  | none => some none
  | some (.natC n) => some (some n)
  | some _ => none

/-- Decode one optional string column. -/
def decodeOptStr : Option Cell → Option (Option String)
  | none => some none
  | some (.strC t) => some (some t)
  | some _ => none

/-- Modelled from the spec (§4.1 restore): parse one row back into a
Sample; any malformed row is a decode failure. -/
def restoreRow : List (Option Cell) → Option Sample
  | [some (.ratC ts), some (.ratC cpu), some (.natC mem), dr, dw, tg] => do
      let dr' ← decodeOptNat dr
      let dw' ← decodeOptNat dw
      let tg' ← decodeOptStr tg
      pure { timestamp := ts, cpu_percent := cpu, memory_bytes := mem,
             disk_read_bytes := dr', disk_write_bytes := dw', tag := tg' }
  | _ => none

/-- Modelled from the spec (§4.1 restore): deserialize a persisted file
back into a History, failing on any malformed row. -/
def restoreFile (rows : List (List (Option Cell))) : Option (List Sample) :=
  rows.mapM restoreRow

/-- Modelled from the spec (§5): the sampling activity sleeps `interval`
seconds then captures one Sample, so within `elapsed` seconds it
completes `⌊elapsed / interval⌋` sleep-then-sample cycles. -/
def cycleCount (interval elapsed : ℚ) : ℕ :=
  (⌊elapsed / interval⌋).toNat

end RM


namespace SynIG

/-- From `subset.ipynb` (incremental carry-forward loop): processing one
yearly chunk.  The carried state `prev` is last year's `df_prev`: for
each ABI, its AGE last year, or `none` if absent last year.  Each ABI
present this year gets, after the left merge of the deduplicated chunk
with `df_prev` on `ABI`, `AGE += 1` on a match (non-missing values are
incremented) and `AGE = 0` on a miss (`fillna(0)`, new establishments);
`df_prev` is then replaced by this year's frame, so ABIs absent this
year are dropped from the carry. -/
def ageStep (prev : ℕ → Option ℕ) (abis : List ℕ) : ℕ → Option ℕ :=
  fun a => if a ∈ abis then some ((prev a).elim 0 (· + 1)) else none

/-- From `subset.ipynb`: the AGE carry after processing yearly chunks in
order; the first chunk's unconditional `df['AGE'] = 0` coincides with
`ageStep` applied to the empty carry. -/
def agesAfter (chunks : List (List ℕ)) : ℕ → Option ℕ :=
  chunks.foldl ageStep (fun _ => none)

/-- The incremental algorithm's AGE for establishment `a` in year-index
`i`: the carried AGE once chunks `0..i` have been processed. -/
def incAge (chunks : List (List ℕ)) (a i : ℕ) : Option ℕ :=
  agesAfter (chunks.take (i + 1)) a

/-- From `subset.ipynb` (whole-data cell,
`fy = df.groupby('ABI')['YEAR'].min()`): `FIRST_YEAR` as a year-index —
the first chunk containing the ABI. -/
def firstIdx (chunks : List (List ℕ)) (a : ℕ) : ℕ :=
  chunks.findIdx (fun c => decide (a ∈ c))

/-- From `subset.ipynb` (whole-data cell): `AGE = YEAR - FIRST_YEAR`. -/
def wholeAge (chunks : List (List ℕ)) (a i : ℕ) : ℕ :=
  i - firstIdx chunks a

/-- The establishment `a` appears in a contiguous range of years (no
gaps): whenever it is present in years `i ≤ k`, it is present in every
year in between. -/
def Contiguous (chunks : List (List ℕ)) (a : ℕ) : Prop :=
  ∀ i j k, i ≤ j → j ≤ k →
    a ∈ chunks.getD i [] → a ∈ chunks.getD k [] → a ∈ chunks.getD j []

/-- From `subset.ipynb`: one observation row of a yearly chunk — its
assigned AGE group and its possibly-missing `EMPLOYEES` value. -/
structure Obs where
  age : ℕ
  emp : Option ℚ
deriving DecidableEq, Repr

/-- The non-missing `EMPLOYEES` values of AGE group `g` (pandas
`groupby('AGE')['EMPLOYEES']` aggregations skip missing values). -/
def groupVals (g : ℕ) (rows : List Obs) : List ℚ :=
  (rows.filter (fun r => r.age == g)).filterMap (fun r => r.emp)

/-- From `subset.ipynb`: `df.groupby('AGE')['EMPLOYEES'].sum()` at group
`g`. -/
def groupSum (g : ℕ) (rows : List Obs) : ℚ :=
  (groupVals g rows).sum

/-- From `subset.ipynb`: `df.groupby('AGE')['EMPLOYEES'].count()` at
group `g` (number of non-missing observations). -/
def groupCount (g : ℕ) (rows : List Obs) : ℕ :=
  (groupVals g rows).length

/-- From `subset.ipynb` (whole-data cell):
`df.groupby('AGE')['EMPLOYEES'].mean()` at group `g`. -/
def groupMean (g : ℕ) (rows : List Obs) : ℚ :=
  groupSum g rows / (groupCount g rows : ℚ)

/-- From `subset.ipynb` (combine step): `emp_sum.sum(1) / emp_count.sum(1)`
at group `g` — the sum over years of per-group employment sums divided by
the sum over years of per-group non-missing counts. -/
def combineMean (g : ℕ) (chunks : List (List Obs)) : ℚ :=
  (chunks.map (groupSum g)).sum / ((chunks.map (groupCount g)).sum : ℚ)

end SynIG

namespace RM

lemma restoreRow_persistRow (s : Sample) : restoreRow (persistRow s) = some s := by
  rcases s with ⟨ts, cpu, mem, dr, dw, tg⟩
  rcases dr with _ | n <;> rcases dw with _ | m <;> rcases tg with _ | t <;>
    simp [persistRow, restoreRow, decodeOptNat, decodeOptStr]

/-- `start` never changes History or the pending tag slot. -/
lemma step_startE_frame (s : MonState) :
    (step s .startE).history = s.history ∧ (step s .startE).pending = s.pending := by
  cases h : s.phase <;> simp [step, start, h]

/-- `stop` never changes History or the pending tag slot. -/
lemma step_stopE_frame (s : MonState) :
    (step s .stopE).history = s.history ∧ (step s .stopE).pending = s.pending := by
  cases h : s.phase <;> simp [step, stop, h]

/-- Process death never changes History or the pending tag slot. -/
lemma step_deathE_frame (s : MonState) :
    (step s .deathE).history = s.history ∧ (step s .deathE).pending = s.pending := by
  by_cases h : s.phase = .running <;> simp [step, procDeath, h]

/-- With an empty pending slot and no further `tag` calls, every sample
appended by any event sequence carries no label. -/
lemma pending_none_trace : ∀ (es : List Ev) (s : MonState),
    (∀ l, Ev.tagE l ∉ es) → s.pending = none →
    ∃ k, (exec s es).history.map Sample.tag =
      s.history.map Sample.tag ++ List.replicate k none
  | [], s, _, _ => ⟨0, by simp [exec]⟩
  | e :: es, s, hes, hp => by
      have hes' : ∀ l, Ev.tagE l ∉ es := fun l hl => hes l (List.mem_cons_of_mem _ hl)
      cases e with
      | startE =>
          obtain ⟨h1, h2⟩ := step_startE_frame s
          obtain ⟨k, hk⟩ := pending_none_trace es (step s .startE) hes' (h2.trans hp)
          exact ⟨k, by rw [exec, hk, h1]⟩
      | stopE =>
          obtain ⟨h1, h2⟩ := step_stopE_frame s
          obtain ⟨k, hk⟩ := pending_none_trace es (step s .stopE) hes' (h2.trans hp)
          exact ⟨k, by rw [exec, hk, h1]⟩
      | deathE =>
          obtain ⟨h1, h2⟩ := step_deathE_frame s
          obtain ⟨k, hk⟩ := pending_none_trace es (step s .deathE) hes' (h2.trans hp)
          exact ⟨k, by rw [exec, hk, h1]⟩
      | tagE l => exact absurd (List.mem_cons_self _ _) (hes l)
      | sampleE r =>
          by_cases hr : s.phase = .running
          · have hstep : step s (.sampleE r) =
                { s with history := s.history ++ [mkSample r s.pending], pending := none } := by
              simp [step, sampleStep, hr]
            obtain ⟨k, hk⟩ := pending_none_trace es (step s (.sampleE r)) hes' (by rw [hstep])
            refine ⟨k + 1, ?_⟩
            rw [exec, hk, hstep]
            simp [hp, mkSample, List.replicate_succ]
          · have hstep : step s (.sampleE r) = s := by simp [step, sampleStep, hr]
            obtain ⟨k, hk⟩ := pending_none_trace es (step s (.sampleE r)) hes' (by rw [hstep]; exact hp)
            exact ⟨k, by rw [exec, hk, hstep]⟩

/-- With a pending label `l` and no further `tag` calls, either no sample
is captured at all (History unchanged), or the very next captured sample
carries `l` and every later one carries no label. -/
lemma pending_some_trace : ∀ (es : List Ev) (s : MonState) (l : String),
    (∀ l', Ev.tagE l' ∉ es) → s.pending = some l →
    (exec s es).history = s.history ∨
    ∃ k, (exec s es).history.map Sample.tag =
      s.history.map Sample.tag ++ some l :: List.replicate k none
  | [], s, l, _, _ => Or.inl rfl
  | e :: es, s, l, hes, hp => by
      have hes' : ∀ l', Ev.tagE l' ∉ es := fun l' hl => hes l' (List.mem_cons_of_mem _ hl)
      cases e with
      | startE =>
          obtain ⟨h1, h2⟩ := step_startE_frame s
          rcases pending_some_trace es (step s .startE) l hes' (h2.trans hp) with h | ⟨k, hk⟩
          · exact Or.inl (by rw [exec, h, h1])
          · exact Or.inr ⟨k, by rw [exec, hk, h1]⟩
      | stopE =>
          obtain ⟨h1, h2⟩ := step_stopE_frame s
          rcases pending_some_trace es (step s .stopE) l hes' (h2.trans hp) with h | ⟨k, hk⟩
          · exact Or.inl (by rw [exec, h, h1])
          · exact Or.inr ⟨k, by rw [exec, hk, h1]⟩
      | deathE =>
          obtain ⟨h1, h2⟩ := step_deathE_frame s
          rcases pending_some_trace es (step s .deathE) l hes' (h2.trans hp) with h | ⟨k, hk⟩
          · exact Or.inl (by rw [exec, h, h1])
          · exact Or.inr ⟨k, by rw [exec, hk, h1]⟩
      | tagE l' => exact absurd (List.mem_cons_self _ _) (hes l')
      | sampleE r =>
          by_cases hr : s.phase = .running
          · have hstep : step s (.sampleE r) =
                { s with history := s.history ++ [mkSample r s.pending], pending := none } := by
              simp [step, sampleStep, hr]
            obtain ⟨k, hk⟩ := pending_none_trace es (step s (.sampleE r)) hes' (by rw [hstep])
            refine Or.inr ⟨k, ?_⟩
            rw [exec, hk, hstep]
            simp [hp, mkSample]
          · have hstep : step s (.sampleE r) = s := by simp [step, sampleStep, hr]
            rcases pending_some_trace es (step s (.sampleE r)) l hes' (by rw [hstep]; exact hp)
              with h | ⟨k, hk⟩
            · exact Or.inl (by rw [exec, h, hstep])
            · exact Or.inr ⟨k, by rw [exec, hk, hstep]⟩

/-- From a Stopped or Error phase, no event sequence ever changes History,
and the phase stays Stopped or Error. -/
lemma nonlive_trace : ∀ (es : List Ev) (s : MonState),
    (s.phase = .stopped ∨ s.phase = .error) →
    (exec s es).history = s.history ∧
      ((exec s es).phase = .stopped ∨ (exec s es).phase = .error)
  | [], s, h => ⟨rfl, h⟩
  | e :: es, s, h => by
      have key : (step s e).history = s.history ∧
          ((step s e).phase = .stopped ∨ (step s e).phase = .error) := by
        rcases h with h | h <;> cases e <;>
          simp [step, start, stop, tagOp, sampleStep, procDeath, h]
      obtain ⟨ih1, ih2⟩ := nonlive_trace es (step s e) key.2
      exact ⟨by rw [exec] at *; rw [ih1, key.1], by rw [exec] at *; exact ih2⟩

/-- Running from a Running phase, a batch of sampling cycles appends
exactly one Sample per cycle and stays Running. -/
lemma exec_sampleE_length : ∀ (rs : List Reading) (s : MonState),
    s.phase = .running →
    (exec s (rs.map Ev.sampleE)).history.length = s.history.length + rs.length ∧
      (exec s (rs.map Ev.sampleE)).phase = .running
  | [], s, h => ⟨rfl, h⟩
  | r :: rs, s, h => by
      have hstep : step s (.sampleE r) =
          { s with history := s.history ++ [mkSample r s.pending], pending := none } := by
        simp [step, sampleStep, h]
      obtain ⟨ih1, ih2⟩ := exec_sampleE_length rs (step s (.sampleE r)) (by rw [hstep]; exact h)
      refine ⟨?_, ?_⟩
      · rw [List.map_cons, exec] at *
        rw [ih1, hstep]
        simp [Nat.add_assoc, Nat.add_comm 1]
      · rw [List.map_cons, exec] at *
        exact ih2


/-- Every single event leaves History as a prefix of the new History. -/
lemma step_hist_append (s : MonState) (e : Ev) :
    ∃ t, (step s e).history = s.history ++ t := by
  cases e with
  | startE => exact ⟨[], by rw [(step_startE_frame s).1, List.append_nil]⟩
  | stopE => exact ⟨[], by rw [(step_stopE_frame s).1, List.append_nil]⟩
  | deathE => exact ⟨[], by rw [(step_deathE_frame s).1, List.append_nil]⟩
  | tagE l => exact ⟨[], by simp [step, tagOp]⟩
  | sampleE r =>
      by_cases hr : s.phase = .running
      · exact ⟨[mkSample r s.pending], by simp [step, sampleStep, hr]⟩
      · exact ⟨[], by simp [step, sampleStep, hr]⟩

/-- Every event sequence leaves History as a prefix of the new History:
Samples are only ever appended, never reordered or removed. -/
lemma exec_hist_append : ∀ (es : List Ev) (s : MonState),
    ∃ t, (exec s es).history = s.history ++ t
  | [], s => ⟨[], by simp [exec]⟩
  | e :: es, s => by
      obtain ⟨t₁, h1⟩ := step_hist_append s e
      obtain ⟨t₂, h2⟩ := exec_hist_append es (step s e)
      exact ⟨t₁ ++ t₂, by rw [exec, h2, h1, List.append_assoc]⟩

end RM


namespace SynIG

lemma agesAfter_append (l : List (List ℕ)) (c : List ℕ) :
    agesAfter (l ++ [c]) = ageStep (agesAfter l) c := by
  simp [agesAfter, List.foldl_append]

lemma foldl_ageStep_none : ∀ (l : List (List ℕ)) (f : ℕ → Option ℕ) (a : ℕ),
    f a = none → (∀ c ∈ l, a ∉ c) → (l.foldl ageStep f) a = none
  | [], f, a, hf, _ => hf
  | c :: cs, f, a, hf, h => by
      rw [List.foldl_cons]
      exact foldl_ageStep_none cs (ageStep f c) a
        (by simp [ageStep, h c (List.mem_cons_self c cs)])
        (fun c' hc' => h c' (List.mem_cons_of_mem _ hc'))

lemma agesAfter_eq_none (l : List (List ℕ)) (a : ℕ) (h : ∀ c ∈ l, a ∉ c) :
    agesAfter l a = none :=
  foldl_ageStep_none l _ a rfl h

lemma mem_getD_lt {l : List (List ℕ)} {a i : ℕ} (h : a ∈ l.getD i []) :
    i < l.length := by
  by_contra hlt
  rw [List.getD_eq_default _ _ (Nat.le_of_not_lt hlt)] at h
  simp at h

lemma take_succ_getD : ∀ (l : List (List ℕ)) (i : ℕ), i < l.length →
    l.take (i + 1) = l.take i ++ [l.getD i []]
  | c :: cs, 0, _ => rfl
  | c :: cs, i + 1, h => by
      have h' : i < cs.length := by
        simpa using Nat.lt_of_succ_lt_succ h
      simp [take_succ_getD cs i h']

lemma firstIdx_le : ∀ (chunks : List (List ℕ)) (a j : ℕ),
    a ∈ chunks.getD j [] → firstIdx chunks a ≤ j
  | [], a, j, h => by simp at h
  | c :: cs, a, j, h => by
      rw [firstIdx, List.findIdx_cons]
      by_cases hc : a ∈ c
      · simp [hc]
      · cases j with
        | zero => exact absurd (by simpa using h) hc
        | succ k =>
            have ih := firstIdx_le cs a k (by simpa using h)
            simpa [hc, firstIdx] using Nat.succ_le_succ ih

lemma firstIdx_eq : ∀ (chunks : List (List ℕ)) (a j : ℕ),
    a ∈ chunks.getD j [] → (∀ k, k < j → a ∉ chunks.getD k []) →
    firstIdx chunks a = j
  | [], a, j, h, _ => by simp at h
  | c :: cs, a, j, h, hnone => by
      cases j with
      | zero =>
          have hc : a ∈ c := by simpa using h
          simp [firstIdx, List.findIdx_cons, hc]
      | succ k =>
          have hc : a ∉ c := by simpa using hnone 0 (Nat.succ_pos k)
          have ih := firstIdx_eq cs a k (by simpa using h)
            (fun m hm => by simpa using hnone (m + 1) (Nat.succ_lt_succ hm))
          simp [firstIdx, List.findIdx_cons, hc] at ih ⊢
          omega

lemma not_mem_take {chunks : List (List ℕ)} {a n : ℕ}
    (h : ∀ k, k < n → a ∉ chunks.getD k []) : ∀ c ∈ chunks.take n, a ∉ c := by
  intro c hc hac
  obtain ⟨k, hk, hck⟩ := List.mem_iff_getElem.mp hc
  have hkn : k < n := by
    rw [List.length_take] at hk; omega
  have hklen : k < chunks.length := by
    rw [List.length_take] at hk; omega
  apply h k hkn
  have hce : chunks[k] = c := by rw [← hck]; simp
  rw [List.getD_eq_getElem _ _ hklen, hce]
  exact hac

/-- The incremental carry assigns, to every ABI present in year `i` of a
gap-free panel, exactly the whole-data age `i - firstIdx`. -/
lemma incAge_eq : ∀ (i : ℕ) (chunks : List (List ℕ)) (a : ℕ),
    Contiguous chunks a → a ∈ chunks.getD i [] →
    agesAfter (chunks.take (i + 1)) a = some (i - firstIdx chunks a)
  | 0, chunks, a, _, hmem => by
      have hlen : 0 < chunks.length := mem_getD_lt hmem
      have hf : firstIdx chunks a = 0 :=
        firstIdx_eq chunks a 0 hmem (fun k hk => absurd hk (Nat.not_lt_zero k))
      rw [take_succ_getD chunks 0 hlen, hf, agesAfter_append]
      simp only [ageStep]
      rw [if_pos hmem]
      simp [agesAfter]
  | i + 1, chunks, a, hcont, hmem => by
      have hlen : i + 1 < chunks.length := mem_getD_lt hmem
      rw [take_succ_getD chunks (i + 1) hlen, agesAfter_append]
      by_cases hprev : a ∈ chunks.getD i []
      · have ih := incAge_eq i chunks a hcont hprev
        have hfle : firstIdx chunks a ≤ i := firstIdx_le chunks a i hprev
        simp only [ageStep, hmem, if_pos, ih]
        simp only [Option.elim_some]
        congr 1
        omega
      · have hnone : ∀ k, k < i + 1 → a ∉ chunks.getD k [] := by
          intro k hk hink
          exact hprev (hcont k i (i + 1) (Nat.lt_succ_iff.mp hk) (Nat.le_succ i)
            hink hmem)
        have hzero : agesAfter (chunks.take (i + 1)) a = none :=
          agesAfter_eq_none _ a (not_mem_take hnone)
        have hf : firstIdx chunks a = i + 1 := firstIdx_eq chunks a (i + 1) hmem hnone
        rw [hf]
        simp only [ageStep]
        rw [if_pos hmem, hzero]
        simp

lemma groupVals_flatten (g : ℕ) : ∀ (chunks : List (List Obs)),
    groupVals g chunks.flatten = (chunks.map (groupVals g)).flatten
  | [] => rfl
  | c :: cs => by
      show groupVals g (c ++ cs.flatten) = groupVals g c ++ (cs.map (groupVals g)).flatten
      rw [← groupVals_flatten g cs]
      simp [groupVals, List.filter_append, List.filterMap_append]

end SynIG

/-- C1: restoring from the file produced by persisting a monitor's
History yields the very same History, field for field, with absent
optional disk I/O fields and absent tags still absent: for every monitor
state (in particular every reachable one),
`restoreFile (persistFile (historyOp s)) = some (historyOp s)`. -/
theorem c1_persist_restore_roundtrip (s : RM.MonState) :
    RM.restoreFile (RM.persistFile (RM.historyOp s)) = some (RM.historyOp s) := by
  unfold RM.restoreFile RM.persistFile
  induction RM.historyOp s with
  | nil => rfl
  | cons x xs ih =>
      simp only [List.map_cons, List.mapM_cons, RM.restoreRow_persistRow, ih]
      rfl

/-- C2: on a running Monitor, `tag label` attaches `label` to exactly one
Sample — the next one captured — and to no other: over any subsequent
event sequence with no further `tag` call, either no Sample is captured
(History unchanged, label dropped) or the first appended Sample carries
`label` and all later ones carry no label.  Calling `tag` repeatedly
before the next capture is last-write-wins, and a pending label at
`stop` is dropped without error (`stop` still succeeds). -/
theorem c2_tag_next_sample_only (s : RM.MonState) (l l' : String) (es : List RM.Ev)
    (hrun : s.phase = RM.Phase.running) (hes : ∀ l₀, RM.Ev.tagE l₀ ∉ es) :
    ((RM.exec (RM.tagOp l s) es).history = s.history ∨
      ∃ k, (RM.exec (RM.tagOp l s) es).history.map RM.Sample.tag =
        s.history.map RM.Sample.tag ++ some l :: List.replicate k none) ∧
    RM.tagOp l (RM.tagOp l' s) = RM.tagOp l s ∧
    RM.stop (RM.tagOp l s) =
      Except.ok ({ s with phase := RM.Phase.stopped, pending := some l }, s.history) := by
  refine ⟨?_, by simp [RM.tagOp], by simp [RM.stop, RM.tagOp, hrun]⟩
  have := RM.pending_some_trace es (RM.tagOp l s) l hes rfl
  simpa [RM.tagOp] using this

/-- Witness for C2 at a concrete running monitor, labels and trace. -/
theorem c2_witness :
    ((RM.exec (RM.tagOp "mid" ⟨1, RM.Phase.running, [], none⟩)
        [RM.Ev.sampleE ⟨2, 5, 100, none, none⟩, RM.Ev.sampleE ⟨3, 6, 200, none, none⟩,
         RM.Ev.stopE]).history = ([] : List RM.Sample) ∨
      ∃ k, (RM.exec (RM.tagOp "mid" ⟨1, RM.Phase.running, [], none⟩)
        [RM.Ev.sampleE ⟨2, 5, 100, none, none⟩, RM.Ev.sampleE ⟨3, 6, 200, none, none⟩,
         RM.Ev.stopE]).history.map RM.Sample.tag =
        List.map RM.Sample.tag ([] : List RM.Sample) ++ some "mid" :: List.replicate k none) ∧
    RM.tagOp "mid" (RM.tagOp "early" ⟨1, RM.Phase.running, [], none⟩) =
      RM.tagOp "mid" ⟨1, RM.Phase.running, [], none⟩ ∧
    RM.stop (RM.tagOp "mid" ⟨1, RM.Phase.running, [], none⟩) =
      Except.ok (⟨1, RM.Phase.stopped, [], some "mid"⟩, ([] : List RM.Sample)) :=
  c2_tag_next_sample_only ⟨1, RM.Phase.running, [], none⟩ "mid" "early"
    [RM.Ev.sampleE ⟨2, 5, 100, none, none⟩, RM.Ev.sampleE ⟨3, 6, 200, none, none⟩,
     RM.Ev.stopE] rfl (by intro l₀; simp)

/-- C3: once `stop` has returned successfully, no Sample is ever appended
again — over every subsequent event sequence, the History is exactly the
one `stop` returned. -/
theorem c3_stop_finalizes_history (s s₁ : RM.MonState) (h : List RM.Sample)
    (es : List RM.Ev) (hstop : RM.stop s = Except.ok (s₁, h)) :
    RM.historyOp (RM.exec s₁ es) = h ∧ RM.historyOp s₁ = h := by
  have hph : s₁.phase = RM.Phase.stopped ∧ s₁.history = h := by
    cases hp : s.phase <;> simp [RM.stop, hp] at hstop <;>
      obtain ⟨h1, h2⟩ := hstop <;> subst h1 <;> exact ⟨by simp [hp], h2⟩
  have := RM.nonlive_trace es s₁ (Or.inl hph.1)
  exact ⟨by rw [RM.historyOp, this.1, hph.2], by rw [RM.historyOp, hph.2]⟩

/-- Witness for C3 at a concrete running monitor and a trace that tries
to sample, restart and kill the process after `stop` returned. -/
theorem c3_witness :
    RM.historyOp (RM.exec ⟨1, RM.Phase.stopped, [], none⟩
      [RM.Ev.sampleE ⟨0, 0, 0, none, none⟩, RM.Ev.startE, RM.Ev.deathE]) =
        ([] : List RM.Sample) ∧
    RM.historyOp ⟨1, RM.Phase.stopped, [], none⟩ = ([] : List RM.Sample) :=
  c3_stop_finalizes_history ⟨1, RM.Phase.running, [], none⟩ _ _ _ rfl

/-- C4: if the target process vanishes while Running, the monitor enters
the terminal Error phase with its partial History intact; no Sample is
ever appended afterwards; `stop` then succeeds and returns the partial
History; and the failure is not retried (further sampling cycles and
death events are no-ops). -/
theorem c4_process_death (s : RM.MonState) (es : List RM.Ev) (r : RM.Reading)
    (hrun : s.phase = RM.Phase.running) :
    (RM.procDeath s).phase = RM.Phase.error ∧
    (RM.procDeath s).history = s.history ∧
    RM.historyOp (RM.exec (RM.procDeath s) es) = s.history ∧
    RM.stop (RM.procDeath s) =
      Except.ok ({ s with phase := RM.Phase.stopped }, s.history) ∧
    RM.sampleStep r (RM.procDeath s) = RM.procDeath s ∧
    RM.procDeath (RM.procDeath s) = RM.procDeath s := by
  have hpd : RM.procDeath s = { s with phase := RM.Phase.error } := by
    simp [RM.procDeath, hrun]
  have htrace := RM.nonlive_trace es (RM.procDeath s) (Or.inr (by rw [hpd]))
  refine ⟨by rw [hpd], by rw [hpd], ?_, ?_, ?_, ?_⟩
  · rw [RM.historyOp, htrace.1, hpd]
  · rw [hpd]; rfl
  · rw [hpd]; simp [RM.sampleStep]
  · rw [hpd]; simp [RM.procDeath]

/-- Witness for C4 at a concrete running monitor with one collected
Sample. -/
theorem c4_witness :
    (RM.procDeath ⟨1, RM.Phase.running,
        [⟨0, 0, 0, none, none, none⟩], none⟩).phase = RM.Phase.error ∧
    (RM.procDeath ⟨1, RM.Phase.running,
        [⟨0, 0, 0, none, none, none⟩], none⟩).history =
      [⟨0, 0, 0, none, none, none⟩] ∧
    RM.historyOp (RM.exec (RM.procDeath ⟨1, RM.Phase.running,
        [⟨0, 0, 0, none, none, none⟩], none⟩) [RM.Ev.sampleE ⟨2, 1, 1, none, none⟩]) =
      [⟨0, 0, 0, none, none, none⟩] ∧
    RM.stop (RM.procDeath ⟨1, RM.Phase.running,
        [⟨0, 0, 0, none, none, none⟩], none⟩) =
      Except.ok (⟨1, RM.Phase.stopped, [⟨0, 0, 0, none, none, none⟩], none⟩,
        [⟨0, 0, 0, none, none, none⟩]) ∧
    RM.sampleStep ⟨2, 1, 1, none, none⟩ (RM.procDeath ⟨1, RM.Phase.running,
        [⟨0, 0, 0, none, none, none⟩], none⟩) =
      RM.procDeath ⟨1, RM.Phase.running, [⟨0, 0, 0, none, none, none⟩], none⟩ ∧
    RM.procDeath (RM.procDeath ⟨1, RM.Phase.running,
        [⟨0, 0, 0, none, none, none⟩], none⟩) =
      RM.procDeath ⟨1, RM.Phase.running, [⟨0, 0, 0, none, none, none⟩], none⟩ :=
  c4_process_death ⟨1, RM.Phase.running, [⟨0, 0, 0, none, none, none⟩], none⟩
    [RM.Ev.sampleE ⟨2, 1, 1, none, none⟩] ⟨2, 1, 1, none, none⟩ rfl

/-- C5: `start` on a Running monitor fails synchronously with
`AlreadyRunning` and `stop` on an Idle monitor fails synchronously with
`NotRunning`; in both cases the monitor state (hence its History) is
unchanged, so the caller can retry the appropriate call. -/
theorem c5_lifecycle_misuse (s t : RM.MonState) (hs : s.phase = RM.Phase.running)
    (ht : t.phase = RM.Phase.idle) :
    RM.start s = Except.error RM.MonError.AlreadyRunning ∧
    RM.step s RM.Ev.startE = s ∧
    RM.stop t = Except.error RM.MonError.NotRunning ∧
    RM.step t RM.Ev.stopE = t := by
  refine ⟨?_, ?_, ?_, ?_⟩ <;> simp [RM.start, RM.stop, RM.step, hs, ht]

/-- Witness for C5 at a concrete running monitor and a concrete idle
monitor. -/
theorem c5_witness :
    RM.start ⟨1, RM.Phase.running, [], none⟩ =
      Except.error RM.MonError.AlreadyRunning ∧
    RM.step ⟨1, RM.Phase.running, [], none⟩ RM.Ev.startE =
      ⟨1, RM.Phase.running, [], none⟩ ∧
    RM.stop ⟨1, RM.Phase.idle, [], none⟩ = Except.error RM.MonError.NotRunning ∧
    RM.step ⟨1, RM.Phase.idle, [], none⟩ RM.Ev.stopE =
      ⟨1, RM.Phase.idle, [], none⟩ :=
  c5_lifecycle_misuse ⟨1, RM.Phase.running, [], none⟩ ⟨1, RM.Phase.idle, [], none⟩
    rfl rfl

/-- C6: construction with a non-positive interval fails with
`InvalidConfiguration` (returning no monitor object, so no background
task exists), and `InvalidConfiguration` is never raised by the
lifecycle operations of an existing monitor. -/
theorem c6_invalid_configuration (q : ℚ) (s : RM.MonState) (hq : q ≤ 0) :
    RM.create q = Except.error RM.MonError.InvalidConfiguration ∧
    RM.start s ≠ Except.error RM.MonError.InvalidConfiguration ∧
    RM.stop s ≠ Except.error RM.MonError.InvalidConfiguration := by
  refine ⟨by rw [RM.create, if_pos hq], ?_, ?_⟩ <;>
    cases hp : s.phase <;> simp [RM.start, RM.stop, hp]

/-- Witness for C6 at interval 0 and a concrete idle monitor. -/
theorem c6_witness :
    RM.create 0 = Except.error RM.MonError.InvalidConfiguration ∧
    RM.start ⟨1, RM.Phase.idle, [], none⟩ ≠
      Except.error RM.MonError.InvalidConfiguration ∧
    RM.stop ⟨1, RM.Phase.idle, [], none⟩ ≠
      Except.error RM.MonError.InvalidConfiguration :=
  c6_invalid_configuration 0 ⟨1, RM.Phase.idle, [], none⟩ le_rfl


/-- C7: History is append-only — after any event the old History is a
prefix of the new one (likewise across any event sequence); only a
sampling-loop cycle ever changes History (start, stop, tag, history,
render and persist never do); and appending a Sample whose capture time
is at least every recorded timestamp keeps the timestamps sorted in
capture order. -/
theorem c7_history_append_only (s : RM.MonState) (e : RM.Ev) (es : List RM.Ev)
    (r : RM.Reading)
    (hmono : ∀ x ∈ s.history, RM.Sample.timestamp x ≤ r.time)
    (hsorted : List.Chain' (· ≤ ·) (s.history.map RM.Sample.timestamp)) :
    (∃ t₁, (RM.step s e).history = s.history ++ t₁) ∧
    (∃ t₂, (RM.exec s es).history = s.history ++ t₂) ∧
    ((∀ r', e ≠ RM.Ev.sampleE r') → (RM.step s e).history = s.history) ∧
    List.Chain' (· ≤ ·) ((RM.sampleStep r s).history.map RM.Sample.timestamp) := by
  refine ⟨RM.step_hist_append s e, RM.exec_hist_append es s, ?_, ?_⟩
  · intro hne
    cases e with
    | startE => exact (RM.step_startE_frame s).1
    | stopE => exact (RM.step_stopE_frame s).1
    | deathE => exact (RM.step_deathE_frame s).1
    | tagE l => simp [RM.step, RM.tagOp]
    | sampleE r' => exact absurd rfl (hne r')
  · by_cases hr : s.phase = .running
    · simp only [RM.sampleStep, if_pos hr]
      rw [List.map_append]
      refine List.chain'_append.mpr ⟨hsorted, by simp, ?_⟩
      intro x hx y hy
      have hxl : x ∈ s.history.map RM.Sample.timestamp := by
        obtain ⟨hne, hx'⟩ := List.mem_getLast?_eq_getLast hx
        rw [hx']; exact List.getLast_mem hne
      obtain ⟨smp, hsmp, hts⟩ := List.mem_map.mp hxl
      have hy' : r.time = y := by simpa [RM.mkSample] using hy
      rw [← hts, ← hy']
      exact hmono smp hsmp
    · simpa [RM.sampleStep, hr] using hsorted

/-- Witness for C7 at a concrete running monitor with empty History. -/
theorem c7_witness :
    (∃ t₁, (RM.step ⟨1, RM.Phase.running, [], none⟩ RM.Ev.stopE).history =
      ([] : List RM.Sample) ++ t₁) ∧
    (∃ t₂, (RM.exec ⟨1, RM.Phase.running, [], none⟩
      [RM.Ev.sampleE ⟨2, 3, 4, none, none⟩]).history = ([] : List RM.Sample) ++ t₂) ∧
    ((∀ r', RM.Ev.stopE ≠ RM.Ev.sampleE r') →
      (RM.step ⟨1, RM.Phase.running, [], none⟩ RM.Ev.stopE).history =
        ([] : List RM.Sample)) ∧
    List.Chain' (· ≤ ·) ((RM.sampleStep ⟨2, 3, 4, none, none⟩
      ⟨1, RM.Phase.running, [], none⟩).history.map RM.Sample.timestamp) :=
  c7_history_append_only ⟨1, RM.Phase.running, [], none⟩ RM.Ev.stopE
    [RM.Ev.sampleE ⟨2, 3, 4, none, none⟩] ⟨2, 3, 4, none, none⟩
    (by intro x hx; simp at hx) (by simp)

/-- C8: for every positive interval and every natural `N`, if at least
`N * interval` seconds elapse while Running — during which the sampling
activity completes `cycleCount interval elapsed` sleep-then-sample
cycles — then at least `N` further Samples are in the History. -/
theorem c8_min_sample_count (s : RM.MonState) (N : ℕ) (elapsed : ℚ)
    (rs : List RM.Reading) (hrun : s.phase = RM.Phase.running)
    (hpos : 0 < s.interval) (helapsed : (N : ℚ) * s.interval ≤ elapsed)
    (hticks : rs.length = RM.cycleCount s.interval elapsed) :
    s.history.length + N ≤ (RM.exec s (rs.map RM.Ev.sampleE)).history.length := by
  obtain ⟨hlen, -⟩ := RM.exec_sampleE_length rs s hrun
  rw [hlen]
  have h1 : (N : ℚ) ≤ elapsed / s.interval := (le_div_iff₀ hpos).mpr helapsed
  have h2 : (N : ℤ) ≤ ⌊elapsed / s.interval⌋ := Int.le_floor.mpr (by push_cast; exact h1)
  have h3 : N ≤ RM.cycleCount s.interval elapsed := by rw [RM.cycleCount]; omega
  omega

/-- Witness for C8: interval 1, elapsed 2 seconds, so the two completed
cycles put at least 2 Samples in the History. -/
theorem c8_witness :
    (⟨1, RM.Phase.running, [], none⟩ : RM.MonState).history.length + 2 ≤
      (RM.exec ⟨1, RM.Phase.running, [], none⟩
        ([⟨1, 0, 0, none, none⟩, ⟨2, 0, 0, none, none⟩].map RM.Ev.sampleE)).history.length :=
  c8_min_sample_count ⟨1, RM.Phase.running, [], none⟩ 2 2
    [⟨1, 0, 0, none, none⟩, ⟨2, 0, 0, none, none⟩] rfl (by norm_num)
    (by norm_num) (by norm_num [RM.cycleCount]; rfl)


/-- C9: in a yearly-partitioned panel where each establishment (ABI)
appears in a contiguous range of years with no gaps and no duplicate ABI
within a year, the incremental carry-forward algorithm (left merge of
each year with the previous year's ages on ABI, increment non-missing,
fill missing with 0) assigns every present ABI exactly the whole-data
age `AGE = YEAR - FIRST_YEAR`.  (The embedding identifies each yearly
chunk with its list of ABIs; the no-duplicates hypothesis is what makes
that identification faithful to the dataframe code.) -/
theorem c9_incremental_age_eq_whole_age (chunks : List (List ℕ)) (a i : ℕ)
    (hnd : ∀ c ∈ chunks, c.Nodup)
    (hcont : SynIG.Contiguous chunks a)
    (hmem : a ∈ chunks.getD i []) :
    SynIG.incAge chunks a i = some (SynIG.wholeAge chunks a i) := by
  rw [SynIG.incAge, SynIG.wholeAge]
  exact SynIG.incAge_eq i chunks a hcont hmem

/-- Witness for C9: establishment 1 lives in years 0 and 1 of the panel
`[[1], [1, 2]]`; in year 1 the incremental algorithm gives it age 1,
which is the whole-data age `1 - 0`. -/
theorem c9_witness :
    SynIG.incAge [[1], [1, 2]] 1 1 = some (SynIG.wholeAge [[1], [1, 2]] 1 1) :=
  c9_incremental_age_eq_whole_age [[1], [1, 2]] 1 1
    (by intro c hc; fin_cases hc <;> decide)
    (by
      intro i j k hij hjk hi hk
      have hk2 : k < 2 := SynIG.mem_getD_lt hk
      have hj2 : j < 2 := lt_of_le_of_lt hjk hk2
      interval_cases j <;> simp)
    (by simp)

/-- C10: combining per-year partial aggregates by
`emp_sum.sum(1) / emp_count.sum(1)` equals, at every AGE group, the mean
of `EMPLOYEES` over all non-missing observations of that group in the
concatenation of all yearly chunks.  (With no observation at all both
sides are the 0/0 convention of `ℚ`.) -/
theorem c10_split_apply_combine_mean (g : ℕ) (chunks : List (List SynIG.Obs)) :
    SynIG.combineMean g chunks = SynIG.groupMean g chunks.flatten := by
  have hs : (chunks.map (SynIG.groupSum g)).sum = SynIG.groupSum g chunks.flatten := by
    rw [SynIG.groupSum, SynIG.groupVals_flatten, List.sum_flatten, List.map_map]
    rfl
  have hc : (chunks.map (SynIG.groupCount g)).sum = SynIG.groupCount g chunks.flatten := by
    rw [SynIG.groupCount, SynIG.groupVals_flatten, List.length_flatten, List.map_map]
    rfl
  rw [SynIG.combineMean, SynIG.groupMean, hs, hc]
